import Mathlib

/-!
Verification of the optimistic vote reconciliation and paginated feed
synchronization logic of the Clocked mobile client.

The definitions below are a shallow embedding of the TypeScript source:

* `src/hooks/useVote.ts` — the per-post debounce timer map (`voteTimeouts`),
  the optimistic override map (`optimisticVotes`), the `vote` / `removeVote` /
  `toggleVote` operations and `getEffectiveVote`;
* `src/hooks/usePosts.ts` — the feed state (`posts`, `isLoading`,
  `isLoadingMore`, `error`, `hasMore`, `page`), `loadPosts`, `refresh`,
  `loadMore` and `handleNewPost`;
* `src/components/PostCard.tsx` — the optimistic vote-count display
  (`greenCount` / `redCount`) and the `handleVote` tap dispatcher;
* `src/services/supabase.ts` — `PostService.getPosts` vote-count enrichment.

Time is modelled in discrete milliseconds (`Nat`).  Post ids are `String`,
as in the source.  Asynchronous behaviour is modelled by explicit
time-ordered event traces; each JavaScript state update becomes a pure
state-transition function applied at the moment the corresponding callback
runs on the single-threaded event loop.
-/

/-- The two vote kinds, `'green' | 'red'` in `src/types/index.ts`. -/
inductive Kind where
  | green
  | red
deriving DecidableEq, Repr

/-- A tap on the vote controls of one post.  `kind = some k` is a call to
`vote(postId, k)`; `kind = none` is a call to `removeVote(postId)` (the
removal intent).  Both functions in `useVote.ts` share the single
`voteTimeouts[postId]` debounce slot, so one trace type covers both. -/
structure Tap where
  time : Nat
  kind : Option Kind
deriving DecidableEq, Repr

/-- The fixed debounce window: `setTimeout(..., 300)` in `useVote.ts`. -/
def debounceMs : Nat := 300

/-- One step of the debounce timer shared by `vote` and `removeVote` in
`useVote.ts`, processing a time-ordered list of taps on a single post.

The accumulator is the currently armed timer `(deadline, kind)`, if any.
A tap strictly before the deadline is the source's
`clearTimeout(voteTimeouts.current[postId])` followed by re-arming: the old
timer never fires and a new one is armed `debounceMs` after the tap.  A tap
at or after the deadline means the old timer already fired, issuing its
network submission, before the tap arrives; the tap then arms a fresh timer.
At the end of the trace the remaining armed timer fires.  The result is the
list of issued network submissions `(issueTime, kind)` in order.

This is the timer viewed in isolation: the
`finally { delete voteTimeouts.current[postId] }` that runs when an issued
call resolves is not modelled here, so `debounceAux` is exact only for
traces during which no call resolves — such as a first tap sequence on an
idle post, or the single-tap scenario of C9.  `voteStep` / `voteRun` below
model the full mechanism, including the map-entry deletion at call
resolution. -/
def debounceAux : Option (Nat × Option Kind) → List Tap → List (Nat × Option Kind)
  | none, [] => []
  | some a, [] => [a]
  | none, t :: ts => debounceAux (some (t.time + debounceMs, t.kind)) ts
  | some (d, k), t :: ts =>
      if t.time < d then
        debounceAux (some (t.time + debounceMs, t.kind)) ts
      else
        (d, k) :: debounceAux (some (t.time + debounceMs, t.kind)) ts

/-- The submissions issued for a whole tap trace on one post, starting with
no timer armed (no entry in `voteTimeouts`). -/
def debounceRun (ts : List Tap) : List (Nat × Option Kind) :=
  debounceAux none ts

/-- Every tap after the first occurs strictly before the previous tap's
debounce deadline, i.e. strictly within the 300ms window ("a second tap
before the timer fires", spec §4.2). -/
def withinWindowb : List Tap → Bool
  | [] => true
  | [_] => true
  | t :: u :: ts => decide (u.time < t.time + debounceMs) && withinWindowb (u :: ts)

/-- Tap times are nondecreasing along the trace (taps arrive in real time
order on the single-threaded event loop). -/
def timeSortedb : List Tap → Bool
  | [] => true
  | [_] => true
  | t :: u :: ts => decide (t.time ≤ u.time) && timeSortedb (u :: ts)

/-- The `optimisticVotes` map of `useVote.ts`: post id to
`'green' | 'red' | null`.  `none` is absence of the key (`undefined` on the
JavaScript object); `some (some k)` is a pending cast of `k`; `some none` is
a pending removal (`null` value). -/
def OverrideMap : Type := String → Option (Option Kind)

/-- The initial empty `optimisticVotes` object. -/
def emptyOv : OverrideMap := fun _ => none

/-- `setOptimisticVotes(prev => ({ ...prev, [postId]: v }))`. -/
def setOv (m : OverrideMap) (postId : String) (v : Option Kind) : OverrideMap :=
  fun q => if q = postId then some v else m q

/-- `delete updated[postId]` on a copy of the map, as in the error-revert,
grace-clear and `clearOptimisticVote` handlers of `useVote.ts`. -/
def delOv (m : OverrideMap) (postId : String) : OverrideMap :=
  fun q => if q = postId then none else m q

/-- The error branch of the debounced submission in `vote` / `removeVote`:
the override entry for the post is deleted, reverting to the server value. -/
def onVoteError (m : OverrideMap) (postId : String) : OverrideMap :=
  delOv m postId

/-- The body of the 1000ms grace `setTimeout` armed on submission success in
`vote` / `removeVote`: the override entry is deleted. -/
def graceClear (m : OverrideMap) (postId : String) : OverrideMap :=
  delOv m postId

/-- `getEffectiveVote(postId, serverVote)` of `useVote.ts`: the override if
the key is present (`optimisticVote !== undefined`), else the server vote. -/
def getEffectiveVote (m : OverrideMap) (postId : String)
    (serverVote : Option Kind) : Option Kind :=
  match m postId with
  | some v => v
  | none => serverVote

/-- The network action selected by a tap: `castVote` of a kind, or
`removeVote`. -/
inductive VoteAction where
  | cast (k : Kind)
  | remove
deriving DecidableEq, Repr

/-- The decision core of `handleVote` in `PostCard.tsx`: tapping the kind
that equals the effective vote removes, any other tap casts the tapped
kind. -/
def handleVote (effectiveVote : Option Kind) (voteType : Kind) : VoteAction :=
  if effectiveVote = some voteType then VoteAction.remove
  else VoteAction.cast voteType

/-- `toggleVote(postId, currentVote, newVoteType)` of `useVote.ts`: same
decision rule, phrased over the caller-supplied current vote. -/
def toggleVote (currentVote : Option Kind) (newVoteType : Kind) : VoteAction :=
  if currentVote = some newVoteType then VoteAction.remove
  else VoteAction.cast newVoteType

/-- C3: whenever the tapped kind equals the effective vote (computed by
`getEffectiveVote` from the override map and the server vote), both
`PostCard.handleVote` and `useVote.toggleVote` select a removal, never a
re-cast; whenever it differs (including no effective vote), both select a
cast of the tapped kind. -/
theorem c3_same_kind_tap_removes (m : OverrideMap) (postId : String)
    (serverVote : Option Kind) (voteType : Kind) :
    (getEffectiveVote m postId serverVote = some voteType →
      handleVote (getEffectiveVote m postId serverVote) voteType = VoteAction.remove ∧
      toggleVote (getEffectiveVote m postId serverVote) voteType = VoteAction.remove) ∧
    (getEffectiveVote m postId serverVote ≠ some voteType →
      handleVote (getEffectiveVote m postId serverVote) voteType = VoteAction.cast voteType ∧
      toggleVote (getEffectiveVote m postId serverVote) voteType = VoteAction.cast voteType) := by
  constructor
  · intro h
    simp [handleVote, toggleVote, h]
  · intro h
    simp [handleVote, toggleVote, h]

/-- Witness for C3: with a pending green override, tapping green removes;
with no override and no server vote, tapping red casts red. -/
theorem c3_witness :
    handleVote (getEffectiveVote (setOv emptyOv "p1" (some Kind.green)) "p1" none)
        Kind.green = VoteAction.remove ∧
    handleVote (getEffectiveVote emptyOv "p1" none) Kind.red
        = VoteAction.cast Kind.red := by
  refine ⟨((c3_same_kind_tap_removes (setOv emptyOv "p1" (some Kind.green)) "p1" none
      Kind.green).1 ?_).1,
    ((c3_same_kind_tap_removes emptyOv "p1" none Kind.red).2 ?_).1⟩
  · simp [getEffectiveVote, setOv, emptyOv]
  · simp [getEffectiveVote, emptyOv]

/-- C4: after the failure branch of a debounced submission runs for post
`postId`, the override entry is gone and `getEffectiveVote` returns exactly
the server-reported vote — the revert is total, whatever the prior override
was. -/
theorem c4_failure_revert_exact (m : OverrideMap) (postId : String)
    (serverVote : Option Kind) :
    onVoteError m postId postId = none ∧
    getEffectiveVote (onVoteError m postId) postId serverVote = serverVote := by
  constructor
  · simp [onVoteError, delOv]
  · simp [getEffectiveVote, onVoteError, delOv]

/-- Number of network calls for one post in flight at time `t`, when every
submission issued at time `d` resolves at `d + latency`: the count of
logged submissions whose interval `[d, d + latency)` contains `t`. -/
def inFlightCount (latency : Nat) (subs : List (Nat × Option Kind)) (t : Nat) : Nat :=
  (subs.filter (fun sub => decide (sub.1 ≤ t ∧ t < sub.1 + latency))).length

lemma timeSortedb_head_le (u : Tap) (ts : List Tap)
    (h : timeSortedb (u :: ts) = true) :
    ∀ w ∈ ts, u.time ≤ w.time := by
  induction ts generalizing u with
  | nil => intro w hw; simp at hw
  | cons v vs ih =>
      intro w hw
      simp [timeSortedb] at h
      rcases List.mem_cons.mp hw with rfl | hw'
      · exact h.1
      · exact Nat.le_trans h.1 (ih v h.2 w hw')

lemma timeSortedb_tail (u : Tap) (ts : List Tap)
    (h : timeSortedb (u :: ts) = true) : timeSortedb ts = true := by
  cases ts with
  | nil => rfl
  | cons v vs => simp [timeSortedb] at h; exact h.2

/-- The full per-post timer-map state of `useVote.ts`, including the
`finally` clean-up that `debounceAux` idealises away.  Between taps the
machine tracks:

* `subs` — network submissions issued so far, in issue order;
* `orphans` — armed timers whose handle is no longer in
  `voteTimeouts.current[postId]`: a `finally` delete removed the map entry
  while they were armed, so no later tap can `clearTimeout` them and they
  will fire at their deadlines;
* `armed` — the `(deadline, kind)` of the timer whose handle the map slot
  currently holds, if that timer is still scheduled;
* `resolutions` — the times at which issued calls resolve and run
  `finally { setIsVoting(false); delete voteTimeouts.current[postId] }`
  (issue time plus the call latency);
* `lastTap` — the time of the previous tap, which is when the map slot was
  last written. -/
structure VoteSim where
  subs : List (Nat × Option Kind)
  orphans : List (Nat × Option Kind)
  armed : Option (Nat × Option Kind)
  resolutions : List Nat
  lastTap : Nat
deriving Repr

/-- The run-up to and effect of one tap in `vote` / `removeVote`, with a
uniform call latency `L`.  Before the tap runs, everything scheduled at or
before the tap's time happens: timers whose deadline has passed fire,
issuing their submission and scheduling a `finally` delete at
`deadline + L`, and due `finally` deletes empty the map slot.  Since no
tap intervenes, the slot-held timer and every orphan fire exactly when
due.  The tap then runs `clearTimeout(voteTimeouts.current[postId])`: this
cancels the armed timer only if its handle is still in the slot — if any
`finally` delete ran after the slot was written
(`lastTap < r ≤ tap.time`), the slot is empty, the still-armed timer is
orphaned and will fire anyway.  Finally the tap stores a fresh timer
handle in the slot.  Orphans are kept in arming order, which is deadline
order for real-time-ordered taps; ties between scheduled work and a tap
at the same millisecond are resolved with the scheduled work first, as in
`debounceAux`. -/
def voteStep (L : Nat) (st : VoteSim) (tap : Tap) : VoteSim :=
  let dueOrphans := st.orphans.takeWhile fun o => decide (o.1 ≤ tap.time)
  let remOrphans := st.orphans.dropWhile fun o => decide (o.1 ≤ tap.time)
  let armedFired :=
    match st.armed with
    | some a => if a.1 ≤ tap.time then [a] else []
    | none => []
  let fired := dueOrphans ++ armedFired
  let res := st.resolutions ++ fired.map fun f => f.1 + L
  let slotDeleted := res.any fun r => decide (st.lastTap < r) && decide (r ≤ tap.time)
  let newOrphans :=
    match st.armed with
    | some a =>
        if a.1 ≤ tap.time then remOrphans
        else if slotDeleted then remOrphans ++ [a]
        else remOrphans
    | none => remOrphans
  { subs := st.subs ++ fired,
    orphans := newOrphans,
    armed := some (tap.time + debounceMs, tap.kind),
    resolutions := res,
    lastTap := tap.time }

/-- The idle post: no submissions, no timers, an empty map slot, no call
in flight. -/
def voteInit : VoteSim :=
  { subs := [], orphans := [], armed := none, resolutions := [], lastTap := 0 }

/-- After the last tap nothing cancels anything: every remaining timer —
orphans first, then the slot-held one — fires at its deadline. -/
def voteFlush (st : VoteSim) : List (Nat × Option Kind) :=
  st.subs ++ st.orphans ++ st.armed.toList

/-- Every network submission issued for a time-ordered tap trace on one
post, starting from an idle post, when every call takes `L` ms to
resolve. -/
def voteRun (L : Nat) (ts : List Tap) : List (Nat × Option Kind) :=
  voteFlush (ts.foldl (voteStep L) voteInit)

lemma voteStep_within (L : Nat) (prev u : Tap)
    (h : u.time < prev.time + debounceMs) :
    voteStep L
      { subs := [], orphans := [], armed := some (prev.time + debounceMs, prev.kind),
        resolutions := [], lastTap := prev.time } u
      = { subs := [], orphans := [], armed := some (u.time + debounceMs, u.kind),
          resolutions := [], lastTap := u.time } := by
  simp [voteStep, Nat.not_le.mpr h]

lemma voteRun_within_aux (L : Nat) (ts : List Tap) :
    ∀ prev : Tap, withinWindowb (prev :: ts) = true →
      ∀ t : Tap, ts = ts.dropLast ++ [t] →
        ts.foldl (voteStep L)
          { subs := [], orphans := [], armed := some (prev.time + debounceMs, prev.kind),
            resolutions := [], lastTap := prev.time }
          = { subs := [], orphans := [], armed := some (t.time + debounceMs, t.kind),
              resolutions := [], lastTap := t.time } := by
  induction ts with
  | nil => intro prev _ t ht; simp at ht
  | cons u us ih =>
      intro prev hw t ht
      have hlt : u.time < prev.time + debounceMs := by
        have := hw
        simp [withinWindowb] at this
        exact this.1
      rw [List.foldl_cons, voteStep_within L prev u hlt]
      cases us with
      | nil =>
          have : u = t := by
            simpa using ht
          subst this
          simp
      | cons v vs =>
          have hw' : withinWindowb (u :: v :: vs) = true := by
            simp [withinWindowb] at hw ⊢
            exact ⟨hw.2.1, hw.2.2⟩
          have ht' : v :: vs = (v :: vs).dropLast ++ [t] := by
            have h1 : (u :: v :: vs).dropLast = u :: (v :: vs).dropLast := by
              simp [List.dropLast]
            rw [h1] at ht
            simpa using ht
          exact ih u hw' t ht'

/-- Counterexample to C1 as stated: the time-ordered taps green at 0ms,
red at 350ms and green at 600ms, with 200ms call latency.  The pair
red@350ms, green@600ms is a tap sequence in which each tap occurs within
300ms of the previous one, yet the program issues two submissions once
the window settles — red at 650ms and green at 900ms — and the red one
is not the final tap's kind.  The first call (issued at 300ms) resolves
at 500ms and its `finally { delete voteTimeouts.current[postId] }`
removes the map entry of the timer armed at 350ms, so the tap at 600ms
finds no handle to `clearTimeout` and the superseded red timer fires
anyway. -/
theorem c1_counterexample :
    withinWindowb [⟨350, some Kind.red⟩, ⟨600, some Kind.green⟩] = true ∧
    voteRun 200 [⟨0, some Kind.green⟩, ⟨350, some Kind.red⟩, ⟨600, some Kind.green⟩]
      = [(300, some Kind.green), (650, some Kind.red), (900, some Kind.green)] ∧
    ¬ (((voteRun 200 [⟨0, some Kind.green⟩, ⟨350, some Kind.red⟩,
          ⟨600, some Kind.green⟩]).filter fun s => decide (350 ≤ s.1)).length ≤ 1) := by
  refine ⟨by decide, by decide, by decide⟩

/-- C1 amended: starting from an idle post — no armed timer, no in-flight
submission, an empty timer-map slot — every nonempty sequence of vote /
vote-removal taps in which each tap falls strictly within the 300ms
debounce window of the previous one yields exactly one network
submission once the window settles, `debounceMs` after the final tap,
with the final tap's kind, whatever the call latency.  From a non-idle
start this fails: an earlier call's `finally`-delete can orphan the armed
timer so that a within-window tap cannot cancel it and a superseded kind
is also submitted (see `c1_counterexample`). -/
theorem c1_idle_debounce_single_submission (L : Nat) (ts : List Tap) (t : Tap)
    (hw : withinWindowb (ts ++ [t]) = true) :
    voteRun L (ts ++ [t]) = [(t.time + debounceMs, t.kind)] := by
  cases ts with
  | nil =>
      simp [voteRun, voteFlush, voteStep, voteInit]
  | cons prev rest =>
      have h0 : voteStep L voteInit prev
          = { subs := [], orphans := [], armed := some (prev.time + debounceMs, prev.kind),
              resolutions := [], lastTap := prev.time } := by
        simp [voteStep, voteInit]
      have hrun : voteRun L (prev :: rest ++ [t])
          = voteFlush ((rest ++ [t]).foldl (voteStep L) (voteStep L voteInit prev)) := rfl
      rw [hrun, h0, voteRun_within_aux L (rest ++ [t]) prev (by simpa using hw) t (by simp)]
      simp [voteFlush]

/-- Witness for C1's amended theorem: from an idle post, taps green, red,
remove at 0ms, 200ms, 399ms — each within 300ms of the previous — with
200ms call latency produce exactly one submission, the removal, at
699ms. -/
theorem c1_witness :
    voteRun 200 [⟨0, some Kind.green⟩, ⟨200, some Kind.red⟩, ⟨399, none⟩]
      = [(699, none)] := by
  have h := c1_idle_debounce_single_submission 200
    [⟨0, some Kind.green⟩, ⟨200, some Kind.red⟩] ⟨399, none⟩ (by decide)
  simpa using h

/-- Issue times are strictly increasing along a submission log. -/
def strictTimes : List (Nat × Option Kind) → Bool
  | [] => true
  | [_] => true
  | a :: b :: rest => decide (a.1 < b.1) && strictTimes (b :: rest)

lemma strictTimes_tail (x : Nat × Option Kind) (l : List (Nat × Option Kind))
    (h : strictTimes (x :: l) = true) : strictTimes l = true := by
  cases l with
  | nil => rfl
  | cons y ys => simp [strictTimes] at h; exact h.2

lemma strictTimes_head_lt (x : Nat × Option Kind) (l : List (Nat × Option Kind))
    (h : strictTimes (x :: l) = true) : ∀ y ∈ l, x.1 < y.1 := by
  induction l generalizing x with
  | nil => intro y hy; simp at hy
  | cons y ys ih =>
      intro z hz
      simp [strictTimes] at h
      rcases List.mem_cons.mp hz with rfl | hz
      · exact h.1
      · exact Nat.lt_trans h.1 (ih y h.2 z hz)

lemma strictTimes_cons (x : Nat × Option Kind) (l : List (Nat × Option Kind))
    (hl : strictTimes l = true) (hx : ∀ y ∈ l, x.1 < y.1) :
    strictTimes (x :: l) = true := by
  cases l with
  | nil => rfl
  | cons y ys =>
      simp [strictTimes]
      exact ⟨hx y (List.mem_cons_self y ys), hl⟩

lemma strictTimes_append_left (xs ys : List (Nat × Option Kind))
    (h : strictTimes (xs ++ ys) = true) : strictTimes xs = true := by
  induction xs with
  | nil => rfl
  | cons x xs ih =>
      refine strictTimes_cons x xs (ih (strictTimes_tail _ _ h)) ?_
      intro y hy
      exact strictTimes_head_lt x (xs ++ ys) h y (List.mem_append_left ys hy)

lemma strictTimes_append_right (xs ys : List (Nat × Option Kind))
    (h : strictTimes (xs ++ ys) = true) : strictTimes ys = true := by
  induction xs with
  | nil => exact h
  | cons x xs ih => exact ih (strictTimes_tail _ _ h)

lemma strictTimes_append_lt (xs ys : List (Nat × Option Kind))
    (h : strictTimes (xs ++ ys) = true) :
    ∀ x ∈ xs, ∀ y ∈ ys, x.1 < y.1 := by
  induction xs with
  | nil => intro x hx; simp at hx
  | cons z xs ih =>
      intro x hx y hy
      rcases List.mem_cons.mp hx with rfl | hx
      · exact strictTimes_head_lt x (xs ++ ys) h y (List.mem_append_right xs hy)
      · exact ih (strictTimes_tail _ _ h) x hx y hy

lemma strictTimes_append (xs ys : List (Nat × Option Kind))
    (hxs : strictTimes xs = true) (hys : strictTimes ys = true)
    (hlt : ∀ x ∈ xs, ∀ y ∈ ys, x.1 < y.1) : strictTimes (xs ++ ys) = true := by
  induction xs with
  | nil => exact hys
  | cons x xs ih =>
      refine strictTimes_cons x (xs ++ ys)
        (ih (strictTimes_tail _ _ hxs)
          (fun a ha b hb => hlt a (List.mem_cons_of_mem x ha) b hb)) ?_
      intro y hy
      rcases List.mem_append.mp hy with hy | hy
      · exact strictTimes_head_lt x xs hxs y hy
      · exact hlt x (List.mem_cons_self x xs) y hy

lemma mem_takeWhile_le (T : Nat) (l : List (Nat × Option Kind)) :
    ∀ x ∈ l.takeWhile (fun o => decide (o.1 ≤ T)), x.1 ≤ T := by
  induction l with
  | nil => intro x hx; simp at hx
  | cons y ys ih =>
      intro x hx
      by_cases hy : y.1 ≤ T
      · rw [List.takeWhile_cons_of_pos (by simpa using hy)] at hx
        rcases List.mem_cons.mp hx with rfl | hx
        · exact hy
        · exact ih x hx
      · rw [List.takeWhile_cons_of_neg (by simpa using hy)] at hx
        simp at hx

lemma mem_dropWhile_gt (T : Nat) (l : List (Nat × Option Kind))
    (hl : strictTimes l = true) :
    ∀ x ∈ l.dropWhile (fun o => decide (o.1 ≤ T)), T < x.1 := by
  induction l with
  | nil => intro x hx; simp at hx
  | cons y ys ih =>
      intro x hx
      by_cases hy : y.1 ≤ T
      · rw [List.dropWhile_cons_of_pos (by simpa using hy)] at hx
        exact ih (strictTimes_tail _ _ hl) x hx
      · rw [List.dropWhile_cons_of_neg (by simpa using hy)] at hx
        rcases List.mem_cons.mp hx with rfl | hx
        · exact Nat.lt_of_not_le hy
        · exact Nat.lt_trans (Nat.lt_of_not_le hy) (strictTimes_head_lt y ys hl x hx)

lemma takeWhile_all_le (T : Nat) (l : List (Nat × Option Kind))
    (h : ∀ x ∈ l, x.1 ≤ T) :
    l.takeWhile (fun o => decide (o.1 ≤ T)) = l ∧
    l.dropWhile (fun o => decide (o.1 ≤ T)) = [] := by
  induction l with
  | nil => exact ⟨rfl, rfl⟩
  | cons y ys ih =>
      have hy : y.1 ≤ T := h y (List.mem_cons_self y ys)
      have ihr := ih fun x hx => h x (List.mem_cons_of_mem y hx)
      constructor
      · rw [List.takeWhile_cons_of_pos (by simpa using hy), ihr.1]
      · rw [List.dropWhile_cons_of_pos (by simpa using hy)]
        exact ihr.2

/-- The reachability invariant of `voteStep` under time-ordered taps: the
submission log, the orphans and the slot-held timer form one strictly
increasing timeline; fired submissions lie at or before the last tap,
live timers strictly after it, the slot-held one within one debounce
window of it; the slot is empty only in the pristine initial state. -/
structure SimInv (st : VoteSim) : Prop where
  chain : strictTimes (st.subs ++ st.orphans ++ st.armed.toList) = true
  subs_le : ∀ s ∈ st.subs, s.1 ≤ st.lastTap
  orphans_gt : ∀ o ∈ st.orphans, st.lastTap < o.1
  armed_bound : ∀ a ∈ st.armed, st.lastTap < a.1 ∧ a.1 ≤ st.lastTap + debounceMs
  pristine : st.armed = none → st.orphans = [] ∧ st.subs = []

lemma voteStep_inv (L : Nat) (st : VoteSim) (u : Tap)
    (hinv : SimInv st) (hu : st.lastTap ≤ u.time) :
    SimInv (voteStep L st u) := by
  have harmedp : (voteStep L st u).armed = some (u.time + debounceMs, u.kind) := by
    simp [voteStep]
  have hlastp : (voteStep L st u).lastTap = u.time := by
    simp [voteStep]
  have harmb : ∀ a ∈ (voteStep L st u).armed,
      (voteStep L st u).lastTap < a.1 ∧ a.1 ≤ (voteStep L st u).lastTap + debounceMs := by
    intro a ha
    rw [harmedp] at ha
    rw [Option.mem_def, Option.some_inj] at ha
    subst ha
    rw [hlastp]
    exact ⟨Nat.lt_add_of_pos_right (by decide), Nat.le_refl _⟩
  have hprist : (voteStep L st u).armed = none →
      (voteStep L st u).orphans = [] ∧ (voteStep L st u).subs = [] := by
    intro h
    rw [harmedp] at h
    exact absurd h (by simp)
  cases harmed : st.armed with
  | none =>
      obtain ⟨ho, hs⟩ := hinv.pristine harmed
      have hsubsp : (voteStep L st u).subs = [] := by
        simp [voteStep, harmed, ho, hs]
      have horphp : (voteStep L st u).orphans = [] := by
        simp [voteStep, harmed, ho]
      refine ⟨?_, ?_, ?_, harmb, hprist⟩
      · rw [hsubsp, horphp, harmedp]
        rfl
      · intro s hs'
        rw [hsubsp] at hs'
        simp at hs'
      · intro o ho'
        rw [horphp] at ho'
        simp at ho'
  | some a =>
      have hbound := hinv.armed_bound a harmed
      have hchain : strictTimes (st.subs ++ (st.orphans ++ [a])) = true := by
        have := hinv.chain
        rw [harmed] at this
        simpa using this
      have horph_a : strictTimes (st.orphans ++ [a]) = true :=
        strictTimes_append_right st.subs _ hchain
      have horphst : strictTimes st.orphans = true :=
        strictTimes_append_left st.orphans [a] horph_a
      have orph_lt_a : ∀ o ∈ st.orphans, o.1 < a.1 := fun o ho =>
        strictTimes_append_lt st.orphans [a] horph_a o ho a (by simp)
      by_cases hfire : a.1 ≤ u.time
      · -- the slot-held timer fired before the tap
        have hallo : ∀ o ∈ st.orphans, o.1 ≤ u.time := fun o ho =>
          Nat.le_of_lt (Nat.lt_of_lt_of_le (orph_lt_a o ho) hfire)
        obtain ⟨htw, hdw⟩ := takeWhile_all_le u.time st.orphans hallo
        have hsubsp : (voteStep L st u).subs = st.subs ++ (st.orphans ++ [a]) := by
          simp [voteStep, harmed, hfire, htw]
        have horphp : (voteStep L st u).orphans = [] := by
          simp [voteStep, harmed, hfire, hdw]
        have hall_le : ∀ x ∈ st.subs ++ (st.orphans ++ [a]), x.1 ≤ u.time := by
          intro x hx
          rcases List.mem_append.mp hx with hx | hx
          · exact Nat.le_trans (hinv.subs_le x hx) hu
          · rcases List.mem_append.mp hx with hx | hx
            · exact hallo x hx
            · rw [List.mem_singleton] at hx
              subst hx
              exact hfire
        refine ⟨?_, ?_, ?_, harmb, hprist⟩
        · rw [hsubsp, horphp, harmedp]
          have hres : strictTimes ((st.subs ++ (st.orphans ++ [a]))
              ++ [(u.time + debounceMs, u.kind)]) = true := by
            refine strictTimes_append _ _ hchain rfl ?_
            intro x hx y hy
            rw [List.mem_singleton] at hy
            subst hy
            exact Nat.lt_of_le_of_lt (hall_le x hx)
              (Nat.lt_add_of_pos_right (by decide))
          simpa using hres
        · intro s hs'
          rw [hsubsp] at hs'
          rw [hlastp]
          exact hall_le s hs'
        · intro o ho'
          rw [horphp] at ho'
          simp at ho'
      · -- the slot-held timer is still armed at the tap
        have hsubsp : (voteStep L st u).subs
            = st.subs ++ st.orphans.takeWhile (fun o => decide (o.1 ≤ u.time)) := by
          simp [voteStep, harmed, hfire]
        have hsub_le : ∀ x ∈ st.subs ++ st.orphans.takeWhile (fun o => decide (o.1 ≤ u.time)),
            x.1 ≤ u.time := by
          intro x hx
          rcases List.mem_append.mp hx with hx | hx
          · exact Nat.le_trans (hinv.subs_le x hx) hu
          · exact mem_takeWhile_le u.time st.orphans x hx
        have hchain_td : strictTimes
            ((st.subs ++ st.orphans.takeWhile (fun o => decide (o.1 ≤ u.time)))
              ++ (st.orphans.dropWhile (fun o => decide (o.1 ≤ u.time)) ++ [a])) = true := by
          have : (st.subs ++ st.orphans.takeWhile (fun o => decide (o.1 ≤ u.time)))
              ++ (st.orphans.dropWhile (fun o => decide (o.1 ≤ u.time)) ++ [a])
              = st.subs ++ (st.orphans ++ [a]) := by
            rw [List.append_assoc]
            rw [← List.append_assoc (st.orphans.takeWhile _) (st.orphans.dropWhile _) [a]]
            rw [List.takeWhile_append_dropWhile]
          rw [this]
          exact hchain
        have horphp : (voteStep L st u).orphans
              = st.orphans.dropWhile (fun o => decide (o.1 ≤ u.time)) ++ [a]
            ∧ st.lastTap < u.time
          ∨ (voteStep L st u).orphans
              = st.orphans.dropWhile (fun o => decide (o.1 ≤ u.time)) := by
          simp only [voteStep, harmed]
          rw [if_neg hfire, if_neg hfire]
          split
          · next hsd =>
              left
              refine ⟨rfl, ?_⟩
              rw [List.any_eq_true] at hsd
              obtain ⟨r, _, hr⟩ := hsd
              rw [Bool.and_eq_true, decide_eq_true_eq, decide_eq_true_eq] at hr
              exact Nat.lt_of_lt_of_le hr.1 hr.2
          · next => right; rfl
        have hdrop_gt : ∀ x ∈ st.orphans.dropWhile (fun o => decide (o.1 ≤ u.time)),
            u.time < x.1 := mem_dropWhile_gt u.time st.orphans horphst
        rcases horphp with ⟨ho, hlt⟩ | ho
        · -- a resolution emptied the slot: the armed timer is orphaned
          refine ⟨?_, ?_, ?_, harmb, hprist⟩
          · rw [hsubsp, ho, harmedp]
            have hres : strictTimes
                (((st.subs ++ st.orphans.takeWhile (fun o => decide (o.1 ≤ u.time)))
                  ++ (st.orphans.dropWhile (fun o => decide (o.1 ≤ u.time)) ++ [a]))
                  ++ [(u.time + debounceMs, u.kind)]) = true := by
              refine strictTimes_append _ _ hchain_td rfl ?_
              intro x hx y hy
              rw [List.mem_singleton] at hy
              subst hy
              rcases List.mem_append.mp hx with hx | hx
              · exact Nat.lt_of_le_of_lt (hsub_le x hx)
                  (Nat.lt_add_of_pos_right (by decide))
              · rcases List.mem_append.mp hx with hx | hx
                · exact Nat.lt_of_lt_of_le (Nat.lt_of_lt_of_le (orph_lt_a x
                    (List.dropWhile_sublist _ |>.subset hx)) hbound.2)
                    (Nat.add_le_add_right hu debounceMs)
                · rw [List.mem_singleton] at hx
                  subst hx
                  exact Nat.lt_of_le_of_lt hbound.2
                    (Nat.add_lt_add_right hlt debounceMs)
            simpa using hres
          · intro s hs'
            rw [hsubsp] at hs'
            rw [hlastp]
            exact hsub_le s hs'
          · intro o ho'
            rw [ho] at ho'
            rw [hlastp]
            rcases List.mem_append.mp ho' with ho' | ho'
            · exact hdrop_gt o ho'
            · rw [List.mem_singleton] at ho'
              subst ho'
              exact Nat.lt_of_not_le hfire
        · -- the tap cleared the armed timer
          refine ⟨?_, ?_, ?_, harmb, hprist⟩
          · rw [hsubsp, ho, harmedp]
            have hchain_nd : strictTimes
                ((st.subs ++ st.orphans.takeWhile (fun o => decide (o.1 ≤ u.time)))
                  ++ st.orphans.dropWhile (fun o => decide (o.1 ≤ u.time))) = true := by
              have h1 : strictTimes
                  (((st.subs ++ st.orphans.takeWhile (fun o => decide (o.1 ≤ u.time)))
                    ++ st.orphans.dropWhile (fun o => decide (o.1 ≤ u.time))) ++ [a]) = true := by
                have heq : ((st.subs ++ st.orphans.takeWhile (fun o => decide (o.1 ≤ u.time)))
                    ++ st.orphans.dropWhile (fun o => decide (o.1 ≤ u.time))) ++ [a]
                    = (st.subs ++ st.orphans.takeWhile (fun o => decide (o.1 ≤ u.time)))
                      ++ (st.orphans.dropWhile (fun o => decide (o.1 ≤ u.time)) ++ [a]) := by
                  rw [List.append_assoc]
                rw [heq]
                exact hchain_td
              exact strictTimes_append_left _ [a] h1
            have hres : strictTimes
                (((st.subs ++ st.orphans.takeWhile (fun o => decide (o.1 ≤ u.time)))
                  ++ st.orphans.dropWhile (fun o => decide (o.1 ≤ u.time)))
                  ++ [(u.time + debounceMs, u.kind)]) = true := by
              refine strictTimes_append _ _ hchain_nd rfl ?_
              intro x hx y hy
              rw [List.mem_singleton] at hy
              subst hy
              rcases List.mem_append.mp hx with hx | hx
              · exact Nat.lt_of_le_of_lt (hsub_le x hx)
                  (Nat.lt_add_of_pos_right (by decide))
              · exact Nat.lt_of_lt_of_le (Nat.lt_of_lt_of_le (orph_lt_a x
                  (List.dropWhile_sublist _ |>.subset hx)) hbound.2)
                  (Nat.add_le_add_right hu debounceMs)
            simpa using hres
          · intro s hs'
            rw [hsubsp] at hs'
            rw [hlastp]
            exact hsub_le s hs'
          · intro o ho'
            rw [ho] at ho'
            rw [hlastp]
            exact hdrop_gt o ho'

lemma voteRun_inv (L : Nat) (ts : List Tap) :
    ∀ st : VoteSim, SimInv st → timeSortedb ts = true →
      (∀ u ∈ ts, st.lastTap ≤ u.time) →
      SimInv (ts.foldl (voteStep L) st) := by
  induction ts with
  | nil => intro st hst _ _; exact hst
  | cons u us ih =>
      intro st hst hsort hge
      rw [List.foldl_cons]
      refine ih (voteStep L st u)
        (voteStep_inv L st u hst (hge u (List.mem_cons_self u us)))
        (timeSortedb_tail u us hsort) ?_
      intro w hw
      have h1 : (voteStep L st u).lastTap = u.time := by simp [voteStep]
      rw [h1]
      exact timeSortedb_head_le u us hsort w hw

/-- Counterexample to C2 as stated: on the time-ordered trace with a green
tap at 0ms and a red tap at 350ms, with 400ms call latency, two network
calls for the same post are in flight at 650ms — the call issued at 300ms
resolves only at 700ms, and the second tap's timer fires at 650ms
regardless; nothing in `useVote.ts` queues a tap's submission behind the
in-flight call. -/
theorem c2_counterexample :
    timeSortedb [⟨0, some Kind.green⟩, ⟨350, some Kind.red⟩] = true ∧
    ¬ (inFlightCount 400
        (voteRun 400 [⟨0, some Kind.green⟩, ⟨350, some Kind.red⟩]) 650 ≤ 1) := by
  exact ⟨by decide, by decide⟩

/-- C2 amended: submissions for one post are issued at strictly increasing
instants — never two at once — but they are not serialized against call
resolution: a tap arriving while a submission is in flight arms a fresh
timer that fires regardless of the in-flight call (so two calls can
overlap whenever the latency exceeds the gap between issue times, see
`c2_counterexample`), and the `finally`-delete of the timer-map entry at
call resolution can orphan a newer armed timer, so consecutive issue
times can even be closer than the 300ms debounce window (650ms and 900ms
in `c1_counterexample`). -/
theorem c2_submissions_ordered (L : Nat) (ts : List Tap)
    (hsort : timeSortedb ts = true) :
    strictTimes (voteRun L ts) = true := by
  have hinit : SimInv voteInit := by
    refine ⟨rfl, ?_, ?_, ?_, fun _ => ⟨rfl, rfl⟩⟩
    · intro s hs
      simp [voteInit] at hs
    · intro o ho
      simp [voteInit] at ho
    · intro a ha
      simp [voteInit, Option.mem_def] at ha
  exact (voteRun_inv L ts voteInit hinit hsort fun u _ => Nat.zero_le _).chain

/-- Witness for C2's amended theorem: the full counterexample trace of C1
has its three submissions issued at the strictly increasing instants
300ms, 650ms and 900ms. -/
theorem c2_witness :
    strictTimes (voteRun 200
      [⟨0, some Kind.green⟩, ⟨350, some Kind.red⟩, ⟨600, some Kind.green⟩]) = true := by
  exact c2_submissions_ordered 200 _ (by decide)

/-- The green-count display of `PostCard.tsx`: start from
`post.green_votes || 0`, subtract one when the server says the viewer voted
green but the effective vote is not green, add one when the server says
otherwise but the effective vote is green. -/
def greenCount (green_votes : Option Int) (user_vote effectiveVote : Option Kind) : Int :=
  let c0 := green_votes.getD 0
  let c1 := if user_vote = some Kind.green ∧ effectiveVote ≠ some Kind.green
    then c0 - 1 else c0
  if user_vote ≠ some Kind.green ∧ effectiveVote = some Kind.green
    then c1 + 1 else c1

/-- The red-count display of `PostCard.tsx`, symmetric to `greenCount`. -/
def redCount (red_votes : Option Int) (user_vote effectiveVote : Option Kind) : Int :=
  let c0 := red_votes.getD 0
  let c1 := if user_vote = some Kind.red ∧ effectiveVote ≠ some Kind.red
    then c0 - 1 else c0
  if user_vote ≠ some Kind.red ∧ effectiveVote = some Kind.red
    then c1 + 1 else c1

/-- C9: the full green-vote scenario on a post "P" showing 0 green / 0 red
with no prior viewer vote.  In order of the conjuncts: the tap sets the
override so the effective vote is green immediately; within the optimistic
window `PostCard` displays 1 green and 0 red against the stale server
counts; the debounce issues exactly one network submission, a green cast,
300ms after the tap; after the success branch arms the 1s grace timeout and
it fires, the override entry is gone and the effective vote is exactly the
server-reported green; and the display of the server's confirmed 1 green /
0 red is then unchanged by the reconciliation arithmetic. -/
theorem c9_green_vote_scenario :
    getEffectiveVote (setOv emptyOv "P" (some Kind.green)) "P" none = some Kind.green ∧
    greenCount (some 0) none (some Kind.green) = 1 ∧
    redCount (some 0) none (some Kind.green) = 0 ∧
    debounceRun [⟨0, some Kind.green⟩] = [(300, some Kind.green)] ∧
    graceClear (setOv emptyOv "P" (some Kind.green)) "P" "P" = none ∧
    getEffectiveVote (graceClear (setOv emptyOv "P" (some Kind.green)) "P") "P"
      (some Kind.green) = some Kind.green ∧
    greenCount (some 1) (some Kind.green) (some Kind.green) = 1 ∧
    redCount (some 0) (some Kind.green) (some Kind.green) = 0 := by
  refine ⟨?_, ?_, ?_, ?_, ?_, ?_, ?_, ?_⟩ <;> decide

/-- A feed entry, the fields of `Post` in `src/types/index.ts` relevant to
the feed and vote claims (identity and the vote-related computed fields;
the remaining attributes — author, image url, labels, timestamps — play no
role in any claim and are omitted). -/
structure Post where
  id : String
  green_votes : Option Int
  red_votes : Option Int
  user_vote : Option Kind
deriving DecidableEq, Repr

/-- `pageSize = 20` in `usePosts.ts`. -/
def pageSize : Nat := 20

/-- The feed state of `usePosts.ts`: the ordered post list, the two
loading flags, the error string, the `hasMore` flag and the page cursor. -/
structure FeedState where
  posts : List Post
  isLoading : Bool
  isLoadingMore : Bool
  error : Option String
  hasMore : Bool
  page : Nat
deriving Repr

/-- The synchronous prefix of `loadPosts(pageNum, ...)` before the network
call suspends: page 0 sets `isLoading` and clears the error, any other page
sets `isLoadingMore`. -/
def startLoad (s : FeedState) (pageNum : Nat) : FeedState :=
  if pageNum = 0 then { s with isLoading := true, error := none }
  else { s with isLoadingMore := true }

/-- `refresh()` of `usePosts.ts`: unconditionally calls
`loadPosts(0, true)`; the returned flag records that a network fetch is
issued (there is no re-entrancy guard on this path). -/
def refreshStart (s : FeedState) : FeedState × Bool :=
  (startLoad s 0, true)

/-- `loadMore()` of `usePosts.ts`: returns without any state change or
network call when `isLoadingMore` is set or `hasMore` is false; otherwise
calls `loadPosts(page + 1, false)`.  The flag records whether a network
fetch is issued. -/
def loadMoreStart (s : FeedState) : FeedState × Bool :=
  if s.isLoadingMore || !s.hasMore then (s, false)
  else (startLoad s (s.page + 1), true)

/-- The state update applied when a `loadPosts(pageNum, replace)` fetch
resolves successfully with `newPosts`: page 0 or `replace` swaps the whole
list in, otherwise the new posts whose ids are not already present are
appended; `hasMore` becomes whether a full page arrived, the cursor moves
to `pageNum`, and the `finally` block clears both loading flags. -/
def applyLoadSuccess (s : FeedState) (pageNum : Nat) (replace : Bool)
    (newPosts : List Post) : FeedState :=
  let posts' :=
    if replace || pageNum = 0 then newPosts
    else s.posts ++ newPosts.filter (fun p => !(s.posts.any (fun q => q.id == p.id)))
  { s with posts := posts', hasMore := newPosts.length == pageSize,
           page := pageNum, isLoading := false, isLoadingMore := false }

/-- The state update when the fetch resolves with an error: the error is
recorded, the list and pagination state are untouched, and the `finally`
block clears both loading flags. -/
def applyLoadError (s : FeedState) (msg : String) : FeedState :=
  { s with error := some msg, isLoading := false, isLoadingMore := false }

/-- `handleNewPost` of `usePosts.ts`, the realtime-insert callback: a post
whose id is already present is ignored, otherwise it is prepended. -/
def handleNewPost (s : FeedState) (newPost : Post) : FeedState :=
  if s.posts.any (fun p => p.id == newPost.id) then s
  else { s with posts := newPost :: s.posts }

/-- The asynchronous completions that mutate the feed list: a refresh
resolving (`loadPosts(0, true)`), a load-more resolving
(`loadPosts(pageNum, false)` with the page number captured at call time),
and a realtime insert event. -/
inductive FeedEvent where
  | refreshDone (result : List Post)
  | loadMoreDone (pageNum : Nat) (result : List Post)
  | rtInsert (p : Post)
deriving Repr

/-- Applying one completion to the feed state. -/
def feedStep (s : FeedState) : FeedEvent → FeedState
  | FeedEvent.refreshDone result => applyLoadSuccess s 0 true result
  | FeedEvent.loadMoreDone pageNum result => applyLoadSuccess s pageNum false result
  | FeedEvent.rtInsert p => handleNewPost s p

/-- Running a whole interleaving of completions. -/
def feedRun (s : FeedState) (evs : List FeedEvent) : FeedState :=
  evs.foldl feedStep s

/-- C7: a refresh resolution replaces the whole list with the page-0
result, resets the cursor to 0 and sets `hasMore` to whether a full
`pageSize` page arrived; consequently any post id present before but absent
from the page-0 result is absent afterwards. -/
theorem c7_refresh_replaces (s : FeedState) (result : List Post) :
    (feedStep s (FeedEvent.refreshDone result)).posts = result ∧
    (feedStep s (FeedEvent.refreshDone result)).page = 0 ∧
    (feedStep s (FeedEvent.refreshDone result)).hasMore
      = (result.length == pageSize) ∧
    ∀ p ∈ s.posts, (∀ q ∈ result, q.id ≠ p.id) →
      ∀ q ∈ (feedStep s (FeedEvent.refreshDone result)).posts, q.id ≠ p.id := by
  refine ⟨rfl, rfl, rfl, ?_⟩
  intro p _ habs q hq
  exact habs q hq

/-- Witness for C7: a state holding post "A" refreshed with a page holding
only post "B" ends with exactly the page-0 list, cursor 0, `hasMore`
false, and no entry with id "A". -/
theorem c7_witness :
    (feedStep { posts := [⟨"A", none, none, none⟩], isLoading := true,
                isLoadingMore := false, error := none, hasMore := true, page := 3 }
        (FeedEvent.refreshDone [⟨"B", none, none, none⟩])).posts
      = [⟨"B", none, none, none⟩] ∧
    ∀ q ∈ (feedStep
             { posts := [(⟨"A", none, none, none⟩ : Post)], isLoading := true,
               isLoadingMore := false, error := none, hasMore := true, page := 3 }
        (FeedEvent.refreshDone [⟨"B", none, none, none⟩])).posts,
      q.id ≠ "A" := by
  have h := c7_refresh_replaces
    { posts := [⟨"A", none, none, none⟩], isLoading := true,
      isLoadingMore := false, error := none, hasMore := true, page := 3 }
    [⟨"B", none, none, none⟩]
  refine ⟨h.1, ?_⟩
  intro q hq
  exact h.2.2.2 ⟨"A", none, none, none⟩ (by decide) (by decide) q hq

/-- Counterexample to C8 as stated: with a refresh already in flight
(`isLoading = true`), calling `refresh` again issues a second network call
(there is no guard on `refresh`), and calling `loadMore` also issues a
network call (its guard checks only `isLoadingMore`, not `isLoading`) — so
neither half of "refresh and loadMore are each guarded against re-entrant
calls while one is already in flight" holds of the code. -/
theorem c8_counterexample :
    ¬ ((refreshStart
          { posts := [], isLoading := true, isLoadingMore := false,
            error := none, hasMore := true, page := 0 }).2 = false ∨
       (loadMoreStart
          { posts := [], isLoading := true, isLoadingMore := false,
            error := none, hasMore := true, page := 0 }).2 = false) := by
  intro h
  rcases h with h | h <;> simp [refreshStart, loadMoreStart, startLoad] at h

/-- C8 amended: `loadMore` is guarded against re-entrant `loadMore` calls —
whenever `isLoadingMore` is set or `hasMore` is false it issues no network
call and leaves the entire state (list, cursor, flags) unchanged — but
`refresh` has no re-entrancy guard, and an in-flight `refresh` does not
block `loadMore` (see `c8_counterexample`). -/
theorem c8_loadmore_guard (s : FeedState)
    (h : s.isLoadingMore = true ∨ s.hasMore = false) :
    loadMoreStart s = (s, false) := by
  rcases h with h | h <;> simp [loadMoreStart, h]

/-- Witness for C8's amended theorem: a state with `hasMore = false` is
returned unchanged with no call issued. -/
theorem c8_witness :
    loadMoreStart
        { posts := [], isLoading := false, isLoadingMore := false,
          error := none, hasMore := false, page := 2 }
      = ({ posts := [], isLoading := false, isLoadingMore := false,
           error := none, hasMore := false, page := 2 }, false) := by
  exact c8_loadmore_guard _ (Or.inr rfl)

/-- Each fetched page carries pairwise-distinct post ids: a fetch result is
one result set of a query on the `posts` relation, whose primary key is
`id`, so no single page can repeat an id.  Realtime inserts carry no
obligation. -/
def eventOk : FeedEvent → Prop
  | FeedEvent.refreshDone result => (result.map Post.id).Nodup
  | FeedEvent.loadMoreDone _ result => (result.map Post.id).Nodup
  | FeedEvent.rtInsert _ => True

instance eventOk.decPred : DecidablePred eventOk := fun e => by
  cases e <;> simp only [eventOk] <;> infer_instance

lemma nodup_append_filter (xs r : List Post)
    (hxs : (xs.map Post.id).Nodup) (hr : (r.map Post.id).Nodup) :
    ((xs ++ r.filter fun p => !(xs.any fun q => q.id == p.id)).map Post.id).Nodup := by
  rw [List.map_append, List.nodup_append]
  refine ⟨hxs, ?_, ?_⟩
  · exact ((r.filter_sublist.map Post.id).nodup hr)
  · intro a ha hb
    obtain ⟨p, hp, rfl⟩ := List.mem_map.mp hb
    obtain ⟨q, hq, hqa⟩ := List.mem_map.mp ha
    have hφ := (List.mem_filter.mp hp).2
    rw [Bool.not_eq_true'] at hφ
    have : ¬ (xs.any fun w => w.id == p.id) = true := by
      simp [hφ]
    rw [List.any_eq_true] at this
    exact this ⟨q, hq, by simp [hqa]⟩

lemma feedStep_nodup (s : FeedState) (e : FeedEvent)
    (hs : (s.posts.map Post.id).Nodup) (he : eventOk e) :
    ((feedStep s e).posts.map Post.id).Nodup := by
  cases e with
  | refreshDone r =>
      simpa [feedStep, applyLoadSuccess] using he
  | loadMoreDone n r =>
      by_cases hn : n = 0
      · subst hn
        simpa [feedStep, applyLoadSuccess] using he
      · have he' : (r.map Post.id).Nodup := he
        simpa [feedStep, applyLoadSuccess, hn]
          using nodup_append_filter s.posts r hs he'
  | rtInsert p =>
      by_cases hp : (s.posts.any fun q => q.id == p.id) = true
      · simpa [feedStep, handleNewPost, hp] using hs
      · have hforall : ∀ x ∈ s.posts, ¬ x.id = p.id := by
          intro x hx hxe
          exact hp (List.any_eq_true.mpr ⟨x, hx, by simp [hxe]⟩)
        simpa [feedStep, handleNewPost, hp, List.nodup_cons] using ⟨hforall, hs⟩

/-- C5: starting from any duplicate-free list, the feed list stays free of
duplicate post ids under every interleaving of refresh resolutions,
load-more resolutions and realtime inserts: refresh installs a
duplicate-free page wholesale, `loadMore` appends only posts whose id is
absent from the current list, and a realtime insert whose id is already
present leaves the list unchanged. -/
theorem c5_no_duplicate_ids (evs : List FeedEvent) (s : FeedState)
    (hs : (s.posts.map Post.id).Nodup) (hevs : ∀ e ∈ evs, eventOk e) :
    ((feedRun s evs).posts.map Post.id).Nodup := by
  induction evs generalizing s with
  | nil => exact hs
  | cons e es ih =>
      have hrun : feedRun s (e :: es) = feedRun (feedStep s e) es := rfl
      rw [hrun]
      exact ih (feedStep s e)
        (feedStep_nodup s e hs (hevs e (List.mem_cons_self e es)))
        (fun e' he' => hevs e' (List.mem_cons_of_mem e he'))

/-- Witness for C5: a refresh of two posts, an overlapping load-more page
and a duplicate realtime insert leave the list at ids A, B, C with no
duplicates. -/
theorem c5_witness :
    ((feedRun
        { posts := [], isLoading := true, isLoadingMore := false,
          error := none, hasMore := true, page := 0 }
        [FeedEvent.refreshDone [⟨"A", none, none, none⟩, ⟨"B", none, none, none⟩],
         FeedEvent.loadMoreDone 1 [⟨"B", none, none, none⟩, ⟨"C", none, none, none⟩],
         FeedEvent.rtInsert ⟨"A", none, none, none⟩]).posts.map Post.id).Nodup := by
  exact c5_no_duplicate_ids _ _ (by decide) (by decide)

/-- `feedStep` paired with provenance tracking: alongside the feed state,
the list of ids of posts that actually entered the list through the
realtime-insert callback (an insert whose id was already present changes
nothing and records nothing). -/
def feedStepRT : FeedState × List String → FeedEvent → FeedState × List String
  | (s, rt), FeedEvent.rtInsert p =>
      if s.posts.any (fun q => q.id == p.id) then (s, rt)
      else ({ s with posts := p :: s.posts }, p.id :: rt)
  | (s, rt), FeedEvent.refreshDone result => (feedStep s (FeedEvent.refreshDone result), rt)
  | (s, rt), FeedEvent.loadMoreDone n result => (feedStep s (FeedEvent.loadMoreDone n result), rt)

/-- Running a trace with provenance tracking. -/
def feedRunRT (init : FeedState × List String) (evs : List FeedEvent) :
    FeedState × List String :=
  evs.foldl feedStepRT init

lemma feedStepRT_fst (s : FeedState) (rt : List String) (e : FeedEvent) :
    (feedStepRT (s, rt) e).1 = feedStep s e := by
  cases e with
  | refreshDone r => rfl
  | loadMoreDone n r => rfl
  | rtInsert p =>
      by_cases hp : (s.posts.any fun q => q.id == p.id) = true <;>
        simp [feedStepRT, feedStep, handleNewPost, hp]

/-- Events that never replace the list wholesale: everything except a
refresh resolution (`loadPosts` replaces exactly when `replace` is set or
the page number is 0, and `loadMore` always passes `page + 1 ≥ 1`). -/
def nonReplacingb : FeedEvent → Bool
  | FeedEvent.refreshDone _ => false
  | FeedEvent.loadMoreDone n _ => !(n == 0)
  | FeedEvent.rtInsert _ => true

/-- The provenance invariant: every recorded realtime id is present in the
list, and the list splits into a prefix of realtime-inserted posts followed
by a suffix of posts that arrived via pagination. -/
def InvRT (p : FeedState × List String) : Prop :=
  (∀ a ∈ p.2, a ∈ p.1.posts.map Post.id) ∧
  ∃ pre suf, p.1.posts = pre ++ suf ∧
    (∀ q ∈ pre, q.id ∈ p.2) ∧ (∀ q ∈ suf, q.id ∉ p.2)

lemma feedStepRT_inv (s : FeedState) (rt : List String) (e : FeedEvent)
    (hinv : InvRT (s, rt)) (he : nonReplacingb e = true) :
    InvRT (feedStepRT (s, rt) e) := by
  obtain ⟨hsub, pre, suf, hsplit, hpre, hsuf⟩ := hinv
  have hsplit' : s.posts = pre ++ suf := hsplit
  cases e with
  | refreshDone r => simp [nonReplacingb] at he
  | loadMoreDone n r =>
      have hn : ¬ n = 0 := by
        simp [nonReplacingb] at he
        exact he
      have hstep : feedStepRT (s, rt) (FeedEvent.loadMoreDone n r)
          = ({ s with
               posts := s.posts ++ r.filter fun p => !(s.posts.any fun q => q.id == p.id),
               hasMore := r.length == pageSize, page := n,
               isLoading := false, isLoadingMore := false }, rt) := by
        simp [feedStepRT, feedStep, applyLoadSuccess, hn]
      rw [hstep]
      refine ⟨?_, pre, suf ++ r.filter fun p => !(s.posts.any fun q => q.id == p.id), ?_, ?_, ?_⟩
      · intro a ha
        have h1 : a ∈ s.posts.map Post.id := hsub a ha
        show a ∈ (s.posts ++ _).map Post.id
        rw [List.map_append]
        exact List.mem_append_left _ h1
      · show s.posts ++ _ = pre ++ (suf ++ _)
        rw [hsplit', List.append_assoc]
      · intro q hq
        exact hpre q hq
      · intro q hq
        rcases List.mem_append.mp hq with hq | hq
        · exact hsuf q hq
        · have hφ := (List.mem_filter.mp hq).2
          rw [Bool.not_eq_true'] at hφ
          intro hrtm
          obtain ⟨w, hw, hwid⟩ := List.mem_map.mp (hsub q.id hrtm)
          have hany : (s.posts.any fun x => x.id == q.id) = true :=
            List.any_eq_true.mpr ⟨w, hw, by simp [hwid]⟩
          rw [hφ] at hany
          exact Bool.false_ne_true hany
  | rtInsert p =>
      by_cases hp : (s.posts.any fun q => q.id == p.id) = true
      · simp only [feedStepRT, hp, if_pos]
        exact ⟨hsub, pre, suf, hsplit, hpre, hsuf⟩
      · have hfresh : ∀ x ∈ s.posts, ¬ x.id = p.id := by
          intro x hx hxe
          exact hp (List.any_eq_true.mpr ⟨x, hx, by simp [hxe]⟩)
        simp only [feedStepRT, hp, if_neg, Bool.false_eq_true, not_false_iff]
        refine ⟨?_, p :: pre, suf, ?_, ?_, ?_⟩
        · intro a ha
          rcases List.mem_cons.mp ha with rfl | ha
          · simp
          · simp only [List.map_cons, List.mem_cons]
            exact Or.inr (hsub a ha)
        · simp [hsplit']
        · intro q hq
          rcases List.mem_cons.mp hq with rfl | hq
          · exact List.mem_cons_self _ _
          · exact List.mem_cons_of_mem _ (hpre q hq)
        · intro q hq
          have hqs : q ∈ s.posts := by
            rw [hsplit]
            exact List.mem_append_right pre hq
          intro hmem
          rcases List.mem_cons.mp hmem with hqp | hqrt
          · exact hfresh q hqs hqp
          · exact hsuf q hq hqrt

lemma feedRunRT_inv (evs : List FeedEvent) (init : FeedState × List String)
    (hinv : InvRT init) (hevs : ∀ e ∈ evs, nonReplacingb e = true) :
    InvRT (feedRunRT init evs) := by
  induction evs generalizing init with
  | nil => exact hinv
  | cons e es ih =>
      have hrun : feedRunRT init (e :: es) = feedRunRT (feedStepRT init e) es := rfl
      rw [hrun]
      have hstep : InvRT (feedStepRT init e) := by
        obtain ⟨s, rt⟩ := init
        exact feedStepRT_inv s rt e hinv (hevs e (List.mem_cons_self e es))
      exact ih (feedStepRT init e) hstep (fun e' he' => hevs e' (List.mem_cons_of_mem e he'))

/-- C6: over any interleaving of load-more resolutions and realtime inserts
(no wholesale replacement), starting from any paginated list with an empty
provenance record, every post that entered through the realtime-insert
callback (id recorded in the provenance list) occurs in the feed list
before every post that arrived via pagination (id not recorded): the pair
is a sublist in that order. -/
theorem c6_realtime_before_paginated (evs : List FeedEvent) (s₀ : FeedState)
    (hevs : ∀ e ∈ evs, nonReplacingb e = true) (p q : Post)
    (hpmem : p ∈ (feedRunRT (s₀, []) evs).1.posts)
    (hrt : p.id ∈ (feedRunRT (s₀, []) evs).2)
    (hpag : q ∈ (feedRunRT (s₀, []) evs).1.posts)
    (hqnot : q.id ∉ (feedRunRT (s₀, []) evs).2) :
    List.Sublist [p, q] (feedRunRT (s₀, []) evs).1.posts := by
  have hinv0 : InvRT (s₀, ([] : List String)) := by
    refine ⟨?_, [], s₀.posts, by simp, ?_, ?_⟩
    · intro a ha; simp at ha
    · intro r hr; simp at hr
    · intro r _ hmem; simp at hmem
  obtain ⟨hsub, pre, suf, hsplit, hpre, hsuf⟩ := feedRunRT_inv evs (s₀, []) hinv0 hevs
  rw [hsplit] at hpmem hpag ⊢
  have hppre : p ∈ pre := by
    rcases List.mem_append.mp hpmem with h | h
    · exact h
    · exact absurd hrt (hsuf p h)
  have hqsuf : q ∈ suf := by
    rcases List.mem_append.mp hpag with h | h
    · exact absurd (hpre q h) hqnot
    · exact h
  have h1 : List.Sublist [p] pre := List.singleton_sublist.mpr hppre
  have h2 : List.Sublist [q] suf := List.singleton_sublist.mpr hqsuf
  simpa using List.Sublist.append h1 h2

/-- Witness for C6: starting from a paginated list holding "B", a realtime
insert of "A" followed by a load-more page appending "C" yields the list
A, B, C; the realtime post A occurs before the paginated post C. -/
theorem c6_witness :
    List.Sublist
      [(⟨"A", none, none, none⟩ : Post), (⟨"C", none, none, none⟩ : Post)]
      (feedRunRT
        ({ posts := [⟨"B", none, none, none⟩], isLoading := false,
           isLoadingMore := false, error := none, hasMore := true, page := 0 }, [])
        [FeedEvent.rtInsert ⟨"A", none, none, none⟩,
         FeedEvent.loadMoreDone 1 [⟨"C", none, none, none⟩]]).1.posts := by
  exact c6_realtime_before_paginated _ _ (by decide)
    ⟨"A", none, none, none⟩ ⟨"C", none, none, none⟩
    (by decide) (by decide) (by decide) (by decide)

/-- A row of the main posts query in `PostService.getPosts`, before the
vote-count enrichment (only the id takes part in the enrichment; the other
selected columns are carried through unchanged and are omitted here). -/
structure RawPost where
  id : String
deriving DecidableEq, Repr

/-- A row of the `votes` sub-queries in `PostService.getPosts`:
`post_id` and `vote_type`. -/
structure VoteRow where
  post_id : String
  vote_type : Kind
deriving DecidableEq, Repr

/-- `PostService.getPosts` of `src/services/supabase.ts`, abstracted over
the three query results it consumes.  `mainResult` is the posts query
(`Except.error` when it failed); `votesResult` is the vote-count sub-query,
whose error the source discards (`const { data: votes } = ...`), so a
failed sub-query is `none` and is treated as an empty row set via
`votes?.filter(...) || []`; `userVotesResult` is the viewer's-votes
sub-query, likewise `data || []`.  Each fetched post is annotated with the
aggregated green and red counts and the viewer's vote found among the
rows. -/
def getPosts (mainResult : Except String (List RawPost))
    (votesResult : Option (List VoteRow))
    (userVotesResult : Option (List VoteRow)) : Except String (List Post) :=
  match mainResult with
  | Except.error _ => Except.error "Failed to load posts"
  | Except.ok posts =>
      if posts.length = 0 then Except.ok []
      else
        let votes := votesResult.getD []
        let userVotes := userVotesResult.getD []
        Except.ok (posts.map fun post =>
          let postVotes := votes.filter fun v => v.post_id == post.id
          let greenVotes := (postVotes.filter fun v => v.vote_type == Kind.green).length
          let redVotes := (postVotes.filter fun v => v.vote_type == Kind.red).length
          let userVote := (userVotes.find? fun v => v.post_id == post.id).map VoteRow.vote_type
          { id := post.id, green_votes := some (greenVotes : Int),
            red_votes := some (redVotes : Int), user_vote := userVote })

/-- C10: when the main posts query succeeds but both vote-enrichment
sub-queries fail (their discarded results are `none`), `getPosts` still
returns the fetched page — every post annotated with zero green and red
counts and no viewer vote — rather than an error. -/
theorem c10_enrichment_failure_degrades (raws : List RawPost) :
    getPosts (Except.ok raws) none none
      = Except.ok (raws.map fun p =>
          { id := p.id, green_votes := some 0, red_votes := some 0,
            user_vote := none }) := by
  cases raws with
  | nil => rfl
  | cons p ps => rfl
